import Mathlib

/-!
Verification of the feature-toggle platform core: the rule / feature-flag
data model, the evaluation engine, and the in-memory dual-key flag
repository.  Every definition is a shallow embedding of the corresponding
JavaScript source (models, FeatureEvaluationEngine, FeatureFlagRepository).

JavaScript machine integers appear only in the percentage-rule hash, which
works on 32-bit wrap-around arithmetic; it is embedded with explicit
modular arithmetic over Int.  JavaScript exceptions are embedded as
Except String; absent (null / undefined) arguments as Option.
-/

deriving instance DecidableEq for Except

namespace FeatureToggle

/-! ## Rules (models: Rule, TenantRule, UserRule, PercentageRule)

The JS Rule class hierarchy is a closed tagged union: the three concrete
variants plus the abstract base class, whose evaluate method always
throws.  Common fields: id, enabled, createdAt (the type discriminant is
the constructor itself).  Timestamps are opaque; we embed them as Nat. -/

inductive Rule where
  | tenant (id : String) (tenantIds : List String) (enabled : Bool) (createdAt : Nat)
  | user (id : String) (userIds : List String) (enabled : Bool) (createdAt : Nat)
  | percentage (id : String) (percentage : Int) (enabled : Bool) (createdAt : Nat)
  | base (id : String) (enabled : Bool) (createdAt : Nat)
deriving DecidableEq, Repr

/-- PercentageRule constructor stores Math.max(0, Math.min(100, percentage)). -/
def clampPercentage (p : Int) : Int := max 0 (min 100 p)

/-- The PercentageRule constructor: clamps the percentage into [0, 100]. -/
def mkPercentageRule (id : String) (p : Int) (enabled : Bool) (createdAt : Nat) : Rule :=
  Rule.percentage id (clampPercentage p) enabled createdAt

/-- EvaluationContext: userId, tenantId, additionalData (opaque bag). -/
structure EvaluationContext where
  userId : String
  tenantId : String
  additionalData : List (String × String)
deriving DecidableEq, Repr

/-- EvaluationResult returned by the engine. -/
structure EvaluationResult where
  enabled : Bool
  matchedRule : Option Rule
  fallbackToDefault : Bool
  evaluationTime : Nat
deriving DecidableEq, Repr

/-- FeatureFlag domain model. -/
structure FeatureFlag where
  id : String
  name : String
  description : String
  enabled : Bool
  rules : List Rule
  createdAt : Nat
  updatedAt : Nat
deriving DecidableEq, Repr

/-! ### The percentage-rule hash

JS: hash = ((hash << 5) - hash) + charCode; hash = hash & hash.
Both the shift and the bitwise-and coerce to a signed 32-bit integer
(ToInt32); the intermediate subtraction and addition are exact. -/

/-- ToInt32: wrap an integer to the signed 32-bit range. -/
def toInt32 (n : Int) : Int := (n + 2 ^ 31) % 2 ^ 32 - 2 ^ 31

/-- One step of the rolling hash: hash = toInt32((hash << 5) - hash + c). -/
def hashStep (h : Int) (c : Nat) : Int := toInt32 (toInt32 (h * 32) - h + c)

/-- UTF-16 code units of a string (ASCII inputs: the character codes). -/
def stringCharCodes (s : String) : List Nat := s.data.map Char.toNat

/-- PercentageRule._hash: polynomial rolling hash, then Math.abs. -/
def jsHashAbs (s : String) : Nat := ((stringCharCodes s).foldl hashStep 0).natAbs

/-- The bucket of a (userId, tenantId) pair: abs hash of "userId:tenantId" mod 100. -/
def percentageBucket (userId tenantId : String) : Nat :=
  jsHashAbs (userId ++ ":" ++ tenantId) % 100

/-- Rule.evaluate, polymorphic over the variant.  The base class throws
"evaluate() must be implemented by subclasses"; exceptions are embedded
as Except.error. -/
def ruleEvaluate : Rule → EvaluationContext → Except String Bool
  | Rule.tenant _ tenantIds enabled _, ctx =>
      if !enabled then Except.ok false
      else Except.ok (tenantIds.contains ctx.tenantId)
  | Rule.user _ userIds enabled _, ctx =>
      if !enabled then Except.ok false
      else Except.ok (userIds.contains ctx.userId)
  | Rule.percentage _ p enabled _, ctx =>
      if !enabled || p == 0 then Except.ok false
      else if p == 100 then Except.ok true
      else Except.ok (decide ((percentageBucket ctx.userId ctx.tenantId : Int) < p))
  | Rule.base _ _ _, _ => Except.error "evaluate() must be implemented by subclasses"

/-! ## FeatureEvaluationEngine -/

/-- Embedding of _evaluateRules: scan the rules in order; the first rule
whose evaluate returns true wins; a rule that throws is caught and
skipped. -/
def evaluateRules : List Rule → EvaluationContext → Option Rule
  | [], _ => none
  | r :: rs, ctx =>
      match ruleEvaluate r ctx with
      | Except.ok true => some r
      | Except.ok false => evaluateRules rs ctx
      | Except.error _ => evaluateRules rs ctx

/-- Embedding of _validateEvaluationInputs: throws when the flag or context is missing
or when userId / tenantId is empty (falsy).  The rules-are-an-array check
cannot fail in the embedding (rules is a List). -/
def validateEvaluationInputs (flag? : Option FeatureFlag) (ctx? : Option EvaluationContext) :
    Except String Unit :=
  match flag? with
  | none => Except.error "Feature flag is required"
  | some _ =>
    match ctx? with
    | none => Except.error "Evaluation context is required"
    | some ctx =>
      if ctx.userId = "" then Except.error "User ID is required in evaluation context"
      else if ctx.tenantId = "" then Except.error "Tenant ID is required in evaluation context"
      else Except.ok ()

/-- The try-block of FeatureEvaluationEngine.evaluate.  The entry
logger.debug call reads featureFlag.id and context.userId, so a null
argument raises a TypeError before validation runs.  elapsed is the
wall-clock duration recorded in the result (diagnostic only). -/
def tryEvaluate (flag? : Option FeatureFlag) (ctx? : Option EvaluationContext) (elapsed : Nat) :
    Except String EvaluationResult :=
  match flag? with
  | none => Except.error "TypeError"
  | some flag =>
    match ctx? with
    | none => Except.error "TypeError"
    | some ctx =>
      match validateEvaluationInputs (some flag) (some ctx) with
      | Except.error e => Except.error e
      | Except.ok _ =>
        match evaluateRules flag.rules ctx with
        | some r => Except.ok ⟨true, some r, false, elapsed⟩
        | none => Except.ok ⟨flag.enabled, none, true, elapsed⟩

/-- FeatureEvaluationEngine.evaluate.  The catch block logs with
featureFlag.id and context.userId and builds the fallback result from
featureFlag.enabled, so with a null flag or context the handler itself
raises and the exception escapes to the caller. -/
def evaluate (flag? : Option FeatureFlag) (ctx? : Option EvaluationContext) (elapsed : Nat) :
    Except String EvaluationResult :=
  match tryEvaluate flag? ctx? elapsed with
  | Except.ok r => Except.ok r
  | Except.error _ =>
      match flag?, ctx? with
      | some flag, some _ => Except.ok ⟨flag.enabled, none, true, elapsed⟩
      | _, _ => Except.error "TypeError"

/-! ## Concrete fixtures used by witnesses and counterexamples -/

def tenantRuleA : Rule := Rule.tenant "rule-tenant" ["company1"] true 0

def userRuleA : Rule := Rule.user "rule-user" ["user1"] true 0

def baseRuleA : Rule := Rule.base "rule-base" true 0

def flagA : FeatureFlag :=
  ⟨"id-a", "feature-a", "demo flag", false, [tenantRuleA, userRuleA], 0, 0⟩

def ctxA : EvaluationContext := ⟨"user1", "company1", []⟩

def ctxOtherTenant : EvaluationContext := ⟨"user1", "companyX", []⟩

def ctxNoUser : EvaluationContext := ⟨"", "company1", []⟩

/-! ## Engine lemmas -/

/-- The scan returns the rule at index i when it evaluates to ok true and
every earlier rule does not. -/
theorem evaluateRules_first (rules : List Rule) (ctx : EvaluationContext) :
    ∀ (i : Nat) (r : Rule), rules[i]? = some r →
    ruleEvaluate r ctx = Except.ok true →
    (∀ r2 ∈ rules.take i, ruleEvaluate r2 ctx ≠ Except.ok true) →
    evaluateRules rules ctx = some r := by
  induction rules with
  | nil => intro i r hget _ _; simp at hget
  | cons a rs ih =>
    intro i r hget hr hfirst
    cases i with
    | zero =>
      simp at hget
      subst hget
      simp [evaluateRules, hr]
    | succ i =>
      simp at hget
      have ha : ruleEvaluate a ctx ≠ Except.ok true := by
        apply hfirst
        simp [List.take_succ_cons]
      have hrest : ∀ r2 ∈ rs.take i, ruleEvaluate r2 ctx ≠ Except.ok true := by
        intro r2 hr2
        apply hfirst
        simp [List.take_succ_cons]
        exact Or.inr hr2
      cases h : ruleEvaluate a ctx with
      | ok b =>
        cases b with
        | true => exact absurd h ha
        | false =>
          simp [evaluateRules, h]
          exact ih i r hget hr hrest
      | error e =>
        simp [evaluateRules, h]
        exact ih i r hget hr hrest

/-- The scan returns none when no rule evaluates to ok true. -/
theorem evaluateRules_none (rules : List Rule) (ctx : EvaluationContext)
    (h : ∀ r ∈ rules, ruleEvaluate r ctx ≠ Except.ok true) :
    evaluateRules rules ctx = none := by
  induction rules with
  | nil => rfl
  | cons a rs ih =>
    have ha : ruleEvaluate a ctx ≠ Except.ok true := h a (by simp)
    have hrest : ∀ r ∈ rs, ruleEvaluate r ctx ≠ Except.ok true := by
      intro r hr; exact h r (by simp [hr])
    cases hev : ruleEvaluate a ctx with
    | ok b =>
      cases b with
      | true => exact absurd hev ha
      | false => simp [evaluateRules, hev]; exact ih hrest
    | error e => simp [evaluateRules, hev]; exact ih hrest

/-- With a present flag and a context with nonempty ids, evaluate reduces
to the rule scan and the fallback construction. -/
theorem evaluate_valid (flag : FeatureFlag) (ctx : EvaluationContext) (elapsed : Nat)
    (hu : ctx.userId ≠ "") (ht : ctx.tenantId ≠ "") :
    evaluate (some flag) (some ctx) elapsed =
      Except.ok (match evaluateRules flag.rules ctx with
        | some r => ⟨true, some r, false, elapsed⟩
        | none => ⟨flag.enabled, none, true, elapsed⟩) := by
  simp only [evaluate, tryEvaluate, validateEvaluationInputs]
  rw [if_neg hu, if_neg ht]
  cases h : evaluateRules flag.rules ctx <;> simp

/-! ## Claim C3: evaluation is total and degrades to the global default -/

/-- C3 counterexample: with an absent (null) context the catch block itself
reads context.userId, so evaluate propagates a TypeError to the caller
instead of returning an EvaluationResult.  This refutes the claim for
absent/null arguments. -/
theorem evaluate_null_context_throws :
    evaluate (some flagA) none 5 = Except.error "TypeError" := rfl

/-- C3 (amended): for every present (non-null) featureFlag and present
context, evaluate returns an EvaluationResult and never propagates an
exception; whenever top-level validation fails, the result has enabled
equal to the flag's global default, no matched rule, and
fallbackToDefault = true. -/
theorem evaluate_total_and_safe_fallback (flag : FeatureFlag) (ctx : EvaluationContext)
    (elapsed : Nat) :
    (∃ res, evaluate (some flag) (some ctx) elapsed = Except.ok res) ∧
    (∀ e, validateEvaluationInputs (some flag) (some ctx) = Except.error e →
      evaluate (some flag) (some ctx) elapsed =
        Except.ok ⟨flag.enabled, none, true, elapsed⟩) := by
  constructor
  · cases hv : validateEvaluationInputs (some flag) (some ctx) with
    | ok u =>
      cases u
      have huht : ctx.userId ≠ "" ∧ ctx.tenantId ≠ "" := by
        by_cases h1 : ctx.userId = ""
        · simp [validateEvaluationInputs, h1] at hv
        · by_cases h2 : ctx.tenantId = ""
          · simp [validateEvaluationInputs, h1, h2] at hv
          · exact ⟨h1, h2⟩
      rw [evaluate_valid flag ctx elapsed huht.1 huht.2]
      exact ⟨_, rfl⟩
    | error e =>
      refine ⟨⟨flag.enabled, none, true, elapsed⟩, ?_⟩
      simp only [evaluate, tryEvaluate, hv]
  · intro e hv
    simp only [evaluate, tryEvaluate, hv]

/-- C3 amended witness: empty userId fails validation and evaluate returns
the safe fallback built from the flag's global default. -/
theorem evaluate_total_and_safe_fallback_witness :
    evaluate (some flagA) (some ctxNoUser) 3 = Except.ok ⟨false, none, true, 3⟩ :=
  (evaluate_total_and_safe_fallback flagA ctxNoUser 3).2
    "User ID is required in evaluation context" (by decide)

/-! ## Claim C4: first matching rule wins, otherwise global default -/

/-- C4: with a valid context the engine scans rules in stored order: if the
rule at index i evaluates to ok true and no earlier rule does, the result
is enabled = true with that rule matched and no fallback, and the scan of
just the first i+1 rules already yields the same outcome (no later rule is
consulted); if no rule evaluates to ok true, the result is the flag's
global default with no matched rule and fallbackToDefault = true. -/
theorem evaluate_first_match_wins (flag : FeatureFlag) (ctx : EvaluationContext)
    (elapsed : Nat) (hu : ctx.userId ≠ "") (ht : ctx.tenantId ≠ "") :
    (∀ (i : Nat) (r : Rule), flag.rules[i]? = some r →
      ruleEvaluate r ctx = Except.ok true →
      (∀ r2 ∈ flag.rules.take i, ruleEvaluate r2 ctx ≠ Except.ok true) →
      evaluate (some flag) (some ctx) elapsed = Except.ok ⟨true, some r, false, elapsed⟩ ∧
      evaluateRules (flag.rules.take (i + 1)) ctx = evaluateRules flag.rules ctx) ∧
    ((∀ r ∈ flag.rules, ruleEvaluate r ctx ≠ Except.ok true) →
      evaluate (some flag) (some ctx) elapsed =
        Except.ok ⟨flag.enabled, none, true, elapsed⟩) := by
  constructor
  · intro i r hget hr hfirst
    have hall : evaluateRules flag.rules ctx = some r :=
      evaluateRules_first flag.rules ctx i r hget hr hfirst
    have hgetTake : (flag.rules.take (i + 1))[i]? = some r := by
      rw [List.getElem?_take]
      simp [hget]
    have hfirstTake : ∀ r2 ∈ (flag.rules.take (i + 1)).take i,
        ruleEvaluate r2 ctx ≠ Except.ok true := by
      intro r2 hr2
      apply hfirst
      rw [List.take_take] at hr2
      simpa [Nat.min_def] using hr2
    have htake : evaluateRules (flag.rules.take (i + 1)) ctx = some r :=
      evaluateRules_first _ ctx i r hgetTake hr hfirstTake
    refine ⟨?_, by rw [htake, hall]⟩
    rw [evaluate_valid flag ctx elapsed hu ht, hall]
  · intro hnone
    rw [evaluate_valid flag ctx elapsed hu ht, evaluateRules_none flag.rules ctx hnone]

/-- C4 witness: on flagA with a context matching only the second rule, the
first (tenant) rule does not match, the second (user) rule is the matched
rule, and scanning just the first two rules gives the same outcome. -/
theorem evaluate_first_match_wins_witness :
    evaluate (some flagA) (some ctxOtherTenant) 7 =
      Except.ok ⟨true, some userRuleA, false, 7⟩ ∧
    evaluateRules (flagA.rules.take 2) ctxOtherTenant =
      evaluateRules flagA.rules ctxOtherTenant :=
  (evaluate_first_match_wins flagA ctxOtherTenant 7 (by decide) (by decide)).1
    1 userRuleA (by decide) (by decide) (by decide)

/-! ## Claim C5: fault isolation between rules -/

/-- C5: a rule whose evaluate throws is treated as non-matching: the scan
skips it and continues with the remaining rules, so a later matching rule
still determines the result and one faulty rule never prevents the flag
from being evaluated. -/
theorem rule_fault_isolation (r : Rule) (rs : List Rule) (ctx : EvaluationContext)
    (e : String) (he : ruleEvaluate r ctx = Except.error e) :
    evaluateRules (r :: rs) ctx = evaluateRules rs ctx := by
  simp [evaluateRules, he]

/-- C5 witness: the abstract base rule throws; the scan skips it and the
later user rule still matches. -/
theorem rule_fault_isolation_witness :
    evaluateRules [baseRuleA, userRuleA] ctxA = evaluateRules [userRuleA] ctxA ∧
    evaluateRules [baseRuleA, userRuleA] ctxA = some userRuleA :=
  ⟨rule_fault_isolation baseRuleA [userRuleA] ctxA
      "evaluate() must be implemented by subclasses" (by decide),
   by decide⟩

/-! ## Claim C7: percentage monotonicity -/

/-- C7: for a fixed context, if an enabled PercentageRule with percentage
p1 in [0, 100] evaluates to true, then any enabled PercentageRule with a
larger percentage p2 in [0, 100] also evaluates to true. -/
theorem percentage_monotone (ctx : EvaluationContext) (id1 id2 : String) (c1 c2 : Nat)
    (p1 p2 : Int) (h0 : 0 ≤ p1) (h100 : p2 ≤ 100) (hlt : p1 < p2)
    (h1 : ruleEvaluate (Rule.percentage id1 p1 true c1) ctx = Except.ok true) :
    ruleEvaluate (Rule.percentage id2 p2 true c2) ctx = Except.ok true := by
  simp only [ruleEvaluate, Bool.not_true, Bool.false_or] at h1 ⊢
  by_cases hp1z : p1 = 0
  · simp [hp1z] at h1
  · by_cases hp1h : p1 = 100
    · omega
    · simp [hp1z, hp1h] at h1
      have hp2z : ¬ p2 = 0 := by omega
      by_cases hp2h : p2 = 100
      · simp [hp2z, hp2h]
      · simp [hp2z, hp2h]
        omega

set_option maxRecDepth 4000 in
/-- C7 witness: for user1 at company1 (bucket 48), percentage 50 matches
and so does percentage 75. -/
theorem percentage_monotone_witness :
    ruleEvaluate (Rule.percentage "pr2" 75 true 0) ctxA = Except.ok true :=
  percentage_monotone ctxA "pr1" "pr2" 0 0 50 75 (by decide) (by decide) (by decide)
    (by decide)

/-! ## Claim C8: percentage clamping -/

/-- C8: the PercentageRule constructor never errors and stores the clamp of
its percentage input into [0, 100]: negative inputs become 0, inputs above
100 become 100, in-range inputs are stored unchanged. -/
theorem percentage_clamped (i : String) (p : Int) (e : Bool) (c : Nat) :
    mkPercentageRule i p e c = Rule.percentage i (clampPercentage p) e c ∧
    0 ≤ clampPercentage p ∧ clampPercentage p ≤ 100 ∧
    (p < 0 → clampPercentage p = 0) ∧
    (100 < p → clampPercentage p = 100) ∧
    (0 ≤ p → p ≤ 100 → clampPercentage p = p) := by
  refine ⟨rfl, ?_, ?_, ?_, ?_, ?_⟩ <;> simp [clampPercentage] <;> omega

/-- C8 witness: clamping at concrete out-of-range and in-range inputs. -/
theorem percentage_clamped_witness :
    clampPercentage (-5) = 0 ∧ clampPercentage 150 = 100 ∧ clampPercentage 42 = 42 :=
  ⟨(percentage_clamped "x" (-5) true 0).2.2.2.1 (by decide),
   (percentage_clamped "x" 150 true 0).2.2.2.2.1 (by decide),
   (percentage_clamped "x" 42 true 0).2.2.2.2.2 (by decide) (by decide)⟩

/-! ## Claim C9: disabled rules never match -/

/-- C9: a disabled rule of any concrete variant evaluates to false for
every context, regardless of its variant-specific fields. -/
theorem disabled_rule_never_matches (ctx : EvaluationContext) :
    (∀ id tids c, ruleEvaluate (Rule.tenant id tids false c) ctx = Except.ok false) ∧
    (∀ id uids c, ruleEvaluate (Rule.user id uids false c) ctx = Except.ok false) ∧
    (∀ id p c, ruleEvaluate (Rule.percentage id p false c) ctx = Except.ok false) :=
  ⟨fun _ _ _ => rfl, fun _ _ _ => rfl, fun _ _ _ => rfl⟩

/-! ## FeatureFlagRepository

The JS repository keeps ONE Map (this.flags) whose entries map both the
flag's id and the flag's name to the same flag object.  To capture
JavaScript reference semantics (Object.assign mutates the object shared by
both entries) we model the store as an insertion-ordered association list
from string keys to object references (Nat), plus a heap mapping each
reference to the current FeatureFlag value.  create allocates a fresh
reference; update mutates the heap cell in place. -/

/-- Map.set: updates the value in place when the key exists (keeping its
insertion position), otherwise appends a new entry. -/
def mapSet {α β : Type} [DecidableEq α] (m : List (α × β)) (k : α) (v : β) :
    List (α × β) :=
  if m.any (fun e => e.1 == k) then
    m.map (fun e => if e.1 == k then (k, v) else e)
  else m ++ [(k, v)]

/-- Map.get: value of the first entry with the given key. -/
def mapGet {α β : Type} [DecidableEq α] (m : List (α × β)) (k : α) : Option β :=
  match m.find? (fun e => e.1 == k) with
  | some e => some e.2
  | none => none

/-- Map.has. -/
def mapHas {α β : Type} [DecidableEq α] (m : List (α × β)) (k : α) : Bool :=
  m.any (fun e => e.1 == k)

/-- Map.delete: removes the entries with the given key. -/
def mapDelete {α β : Type} [DecidableEq α] (m : List (α × β)) (k : α) : List (α × β) :=
  m.filter (fun e => e.1 != k)

/-- Heap write: update the cell of a flag object reference (appending when
the reference is fresh). -/
def heapSet (h : List (Nat × FeatureFlag)) (r : Nat) (f : FeatureFlag) :
    List (Nat × FeatureFlag) := mapSet h r f

/-- Heap read: the flag object a reference denotes. -/
def heapGet (h : List (Nat × FeatureFlag)) (r : Nat) : Option FeatureFlag := mapGet h r

/-- The repository state: the single shared Map (string key to object
reference), the heap of flag objects, and the next fresh reference. -/
structure RepoState where
  entries : List (String × Nat)
  heap : List (Nat × FeatureFlag)
  nextRef : Nat
deriving DecidableEq, Repr

/-- A fresh repository. -/
def emptyRepo : RepoState := ⟨[], [], 0⟩

/-- create(featureFlag): Conflict when the id key or the name key already
has an entry; otherwise inserts the flag object under both keys.  Returns
the created flag (its reference). -/
def create (s : RepoState) (flag : FeatureFlag) : Except String (RepoState × Nat) :=
  if mapHas s.entries flag.id then
    Except.error ("Feature flag with ID " ++ flag.id ++ " already exists")
  else if mapHas s.entries flag.name then
    Except.error ("Feature flag with name " ++ flag.name ++ " already exists")
  else
    Except.ok
      ({ entries := mapSet (mapSet s.entries flag.id s.nextRef) flag.name s.nextRef,
         heap := heapSet s.heap s.nextRef flag,
         nextRef := s.nextRef + 1 }, s.nextRef)

/-- findById(id): this.flags.get(id) or null.  The returned value is the
flag object (here: its reference). -/
def findById (s : RepoState) (id : String) : Option Nat := mapGet s.entries id

/-- findByName(name): this.flags.get(name) or null — the very same lookup
in the shared Map. -/
def findByName (s : RepoState) (name : String) : Option Nat := mapGet s.entries name

/-- The partial updates accepted by update (the validated update shape:
name, description, enabled, rules). -/
structure FlagUpdates where
  name : Option String
  description : Option String
  enabled : Option Bool
  rules : Option (List Rule)
deriving DecidableEq, Repr

/-- Object.assign(existingFlag, updates): overwrite exactly the fields
present in the updates object. -/
def applyUpdates (f : FeatureFlag) (u : FlagUpdates) : FeatureFlag :=
  { f with
    name := u.name.getD f.name,
    description := u.description.getD f.description,
    enabled := u.enabled.getD f.enabled,
    rules := u.rules.getD f.rules }

/-- update(id, updates): null when id is absent.  When updates.name is
truthy (present and nonempty) and differs from the current name, a
Conflict is raised if the new name key is taken, otherwise the old name
entry is removed and the new name key is added; then the fields are
assigned onto the shared object and updatedAt is bumped to now.  Returns
the updated flag (its reference). -/
def update (s : RepoState) (id : String) (u : FlagUpdates) (now : Nat) :
    Except String (RepoState × Option Nat) :=
  match mapGet s.entries id with
  | none => Except.ok (s, none)
  | some r =>
    match heapGet s.heap r with
    | none => Except.ok (s, none)
    | some existingFlag =>
      let newFlag := { applyUpdates existingFlag u with updatedAt := now }
      match u.name with
      | some n =>
        if n != "" && n != existingFlag.name then
          if mapHas s.entries n then
            Except.error ("Feature flag with name " ++ n ++ " already exists")
          else
            Except.ok
              ({ s with
                 entries := mapSet (mapDelete s.entries existingFlag.name) n r,
                 heap := heapSet s.heap r newFlag }, some r)
        else
          Except.ok ({ s with heap := heapSet s.heap r newFlag }, some r)
      | none => Except.ok ({ s with heap := heapSet s.heap r newFlag }, some r)

/-- delete(id): false when absent; otherwise removes the id entry and the
entry under the found flag's name.  The heap cell stays (the JS object
merely becomes unreachable from the Map). -/
def deleteFlag (s : RepoState) (id : String) : RepoState × Bool :=
  match mapGet s.entries id with
  | none => (s, false)
  | some r =>
    match heapGet s.heap r with
    | none => (s, false)
    | some flag =>
      ({ s with entries := mapDelete (mapDelete s.entries id) flag.name }, true)

/-- Case-insensitive substring match used by list and count:
name.toLowerCase().includes(searchLower) on name or description. -/
def charsStartWith : List Char → List Char → Bool
  | _, [] => true
  | [], _ :: _ => false
  | c :: cs, d :: ds => c == d && charsStartWith cs ds

/-- Substring containment over character lists. -/
def charsContain (s pat : List Char) : Bool :=
  match s with
  | [] => pat.isEmpty
  | _ :: rest => charsStartWith s pat || charsContain rest pat

/-- String.includes after toLowerCase on both sides. -/
def searchMatches (f : FeatureFlag) (q : String) : Bool :=
  charsContain f.name.toLower.data q.toLower.data ||
  charsContain f.description.toLower.data q.toLower.data

/-- list(options): all Map values (each stored flag appears once per key
it is stored under) filtered to well-formed flag objects, optionally
filtered by the truthy search term, then sliced by offset and limit
(defaults: limit 100, offset 0).  Values are flag object references. -/
def list (s : RepoState) (limit : Nat) (offset : Nat) (search : Option String) :
    List Nat :=
  let flags := (s.entries.map (fun e => e.2)).filter (fun r =>
    match heapGet s.heap r with
    | some f => f.id != "" && f.name != ""
    | none => false)
  let flags := match search with
    | some q =>
      if q != "" then
        flags.filter (fun r =>
          match heapGet s.heap r with
          | some f => searchMatches f q
          | none => false)
      else flags
    | none => flags
  (flags.drop offset).take limit

/-- count(options): keeps only the Map entries whose key equals the flag
object's own id (so each flag is counted once, not once per key), applies
the truthy search filter, and returns the length. -/
def count (s : RepoState) (search : Option String) : Nat :=
  let flags := (s.entries.filter (fun e =>
    match heapGet s.heap e.2 with
    | some f => f.id != "" && f.name != "" && f.id == e.1
    | none => false)).filterMap (fun e => heapGet s.heap e.2)
  let flags := match search with
    | some q =>
      if q != "" then flags.filter (fun f => searchMatches f q)
      else flags
    | none => flags
  flags.length

/-- exists(id): this.flags.has(id). -/
def existsFlag (s : RepoState) (id : String) : Bool := mapHas s.entries id

/-! ## Association map lemmas -/

section MapLemmas

variable {α β : Type} [DecidableEq α]

theorem mapGet_nil (k : α) : mapGet ([] : List (α × β)) k = none := rfl

theorem mapGet_cons (a : α × β) (m : List (α × β)) (k : α) :
    mapGet (a :: m) k = if a.1 = k then some a.2 else mapGet m k := by
  unfold mapGet
  rw [List.find?_cons]
  by_cases h : a.1 = k
  · rw [beq_iff_eq.mpr h, if_pos h]
  · rw [beq_eq_false_iff_ne.mpr h, if_neg h]

theorem mapGet_map_replace_self (m : List (α × β)) (k : α) (v : β)
    (h : m.any (fun e => e.1 == k) = true) :
    mapGet (m.map (fun e => if e.1 == k then (k, v) else e)) k = some v := by
  induction m with
  | nil => simp at h
  | cons a m ih =>
    rw [List.map_cons]
    by_cases ha : a.1 = k
    · rw [beq_iff_eq.mpr ha, if_pos rfl, mapGet_cons, if_pos rfl]
    · have hb : (a.1 == k) = false := beq_eq_false_iff_ne.mpr ha
      rw [hb, if_neg (by simp), mapGet_cons, if_neg ha]
      apply ih
      rw [List.any_cons, hb, Bool.false_or] at h
      exact h

theorem mapGet_append_single_self (m : List (α × β)) (k : α) (v : β)
    (h : m.any (fun e => e.1 == k) = false) :
    mapGet (m ++ [(k, v)]) k = some v := by
  induction m with
  | nil => rw [List.nil_append, mapGet_cons, if_pos rfl]
  | cons a m ih =>
    rw [List.any_cons] at h
    have ha : (a.1 == k) = false := by
      cases hb : (a.1 == k)
      · rfl
      · rw [hb, Bool.true_or] at h; exact absurd h (by simp)
    have hm : m.any (fun e => e.1 == k) = false := by
      rw [ha, Bool.false_or] at h; exact h
    rw [List.cons_append, mapGet_cons, if_neg (beq_eq_false_iff_ne.mp ha)]
    exact ih hm

theorem mapGet_set_self (m : List (α × β)) (k : α) (v : β) :
    mapGet (mapSet m k v) k = some v := by
  unfold mapSet
  by_cases h : m.any (fun e => e.1 == k) = true
  · rw [if_pos h]; exact mapGet_map_replace_self m k v h
  · rw [if_neg h]; exact mapGet_append_single_self m k v (Bool.not_eq_true _ ▸ h)

theorem mapGet_map_replace_ne (m : List (α × β)) (k k2 : α) (v : β) (h : k2 ≠ k) :
    mapGet (m.map (fun e => if e.1 == k then (k, v) else e)) k2 = mapGet m k2 := by
  induction m with
  | nil => rfl
  | cons a m ih =>
    rw [List.map_cons]
    by_cases ha : a.1 = k
    · rw [beq_iff_eq.mpr ha, if_pos rfl, mapGet_cons, mapGet_cons, if_neg (Ne.symm h),
        if_neg (fun hh => h (ha ▸ hh).symm)]
      exact ih
    · have hb : (a.1 == k) = false := beq_eq_false_iff_ne.mpr ha
      rw [hb, if_neg (by simp), mapGet_cons, mapGet_cons]
      by_cases hk2 : a.1 = k2
      · rw [if_pos hk2, if_pos hk2]
      · rw [if_neg hk2, if_neg hk2]; exact ih

theorem mapGet_append_single_ne (m : List (α × β)) (k k2 : α) (v : β) (h : k2 ≠ k) :
    mapGet (m ++ [(k, v)]) k2 = mapGet m k2 := by
  induction m with
  | nil => rw [List.nil_append, mapGet_cons, if_neg (Ne.symm h)]
  | cons a m ih =>
    rw [List.cons_append, mapGet_cons, mapGet_cons]
    by_cases hk2 : a.1 = k2
    · rw [if_pos hk2, if_pos hk2]
    · rw [if_neg hk2, if_neg hk2]; exact ih

theorem mapGet_set_ne (m : List (α × β)) (k k2 : α) (v : β) (h : k2 ≠ k) :
    mapGet (mapSet m k v) k2 = mapGet m k2 := by
  unfold mapSet
  split
  · exact mapGet_map_replace_ne m k k2 v h
  · exact mapGet_append_single_ne m k k2 v h

theorem mapGet_delete_self (m : List (α × β)) (k : α) :
    mapGet (mapDelete m k) k = none := by
  induction m with
  | nil => rfl
  | cons a m ih =>
    unfold mapDelete at ih ⊢
    rw [List.filter_cons]
    by_cases ha : a.1 = k
    · rw [show (a.1 != k) = false by simp [ha], if_neg (by simp)]
      exact ih
    · rw [show (a.1 != k) = true by simp [ha], if_pos rfl, mapGet_cons, if_neg ha]
      exact ih

theorem mapGet_delete_ne (m : List (α × β)) (k k2 : α) (h : k2 ≠ k) :
    mapGet (mapDelete m k) k2 = mapGet m k2 := by
  induction m with
  | nil => rfl
  | cons a m ih =>
    unfold mapDelete at ih ⊢
    rw [List.filter_cons]
    by_cases ha : a.1 = k
    · rw [show (a.1 != k) = false by simp [ha], if_neg (by simp), ih,
        mapGet_cons, if_neg (fun hh => h (ha ▸ hh).symm)]
    · rw [show (a.1 != k) = true by simp [ha], if_pos rfl, mapGet_cons, mapGet_cons]
      by_cases hk2 : a.1 = k2
      · rw [if_pos hk2, if_pos hk2]
      · rw [if_neg hk2, if_neg hk2]; exact ih

theorem mapHas_of_get (m : List (α × β)) (k : α) (v : β) (h : mapGet m k = some v) :
    mapHas m k = true := by
  induction m with
  | nil => exact absurd h (by simp [mapGet_nil])
  | cons a m ih =>
    rw [mapGet_cons] at h
    unfold mapHas at ih ⊢
    rw [List.any_cons]
    by_cases ha : a.1 = k
    · rw [beq_iff_eq.mpr ha, Bool.true_or]
    · rw [if_neg ha] at h
      rw [beq_eq_false_iff_ne.mpr ha, Bool.false_or]
      exact ih h

theorem mapHas_false_of_get_none (m : List (α × β)) (k : α) (h : mapGet m k = none) :
    mapHas m k = false := by
  induction m with
  | nil => rfl
  | cons a m ih =>
    rw [mapGet_cons] at h
    unfold mapHas at ih ⊢
    rw [List.any_cons]
    by_cases ha : a.1 = k
    · rw [if_pos ha] at h; exact absurd h (by simp)
    · rw [if_neg ha] at h
      rw [beq_eq_false_iff_ne.mpr ha, Bool.false_or]
      exact ih h

end MapLemmas

/-! ## Reachable repository states

A state is reachable when it arises from the empty repository by a
sequence of create / update / delete calls (operations that throw leave
the state unchanged, so only successful steps advance it). -/

inductive Reachable : RepoState → Prop where
  | empty : Reachable emptyRepo
  | createStep {s : RepoState} {flag : FeatureFlag} {t : RepoState} {r : Nat} :
      Reachable s → create s flag = Except.ok (t, r) → Reachable t
  | updateStep {s : RepoState} {id : String} {u : FlagUpdates} {now : Nat}
      {t : RepoState} {ro : Option Nat} :
      Reachable s → update s id u now = Except.ok (t, ro) → Reachable t
  | deleteStep {s : RepoState} {id : String} {t : RepoState} {b : Bool} :
      Reachable s → deleteFlag s id = (t, b) → Reachable t

/-- Reachability under validated, id-keyed usage: the transport layer only
hands the repository flags with a nonempty id and a nonempty name distinct
from the id, name updates that are nonempty strings (the create / update
schemas require a nonempty pattern-checked name and ids are generated
UUIDs), and delete calls keyed by a flag's id (not by the name alias). -/
inductive ReachableW : RepoState → Prop where
  | empty : ReachableW emptyRepo
  | createStep {s : RepoState} {flag : FeatureFlag} {t : RepoState} {r : Nat} :
      ReachableW s → flag.id ≠ "" → flag.name ≠ "" → flag.id ≠ flag.name →
      create s flag = Except.ok (t, r) → ReachableW t
  | updateStep {s : RepoState} {id : String} {u : FlagUpdates} {now : Nat}
      {t : RepoState} {ro : Option Nat} :
      ReachableW s → (∀ n, u.name = some n → n ≠ "") →
      update s id u now = Except.ok (t, ro) → ReachableW t
  | deleteStep {s : RepoState} {id : String} {t : RepoState} {b : Bool} :
      ReachableW s →
      (∀ r f, mapGet s.entries id = some r → heapGet s.heap r = some f → f.id = id) →
      deleteFlag s id = (t, b) → ReachableW t

/-! ## Repository fixtures -/

/-- The state after create(flagA) on the empty repository: one flag stored
under both its id key and its name key (reference 0). -/
def sA : RepoState := ⟨[("id-a", 0), ("feature-a", 0)], [(0, flagA)], 1⟩

/-- A name-changing update. -/
def uB : FlagUpdates := ⟨some "feature-b", none, none, none⟩

/-- flagA after the rename is applied (updatedAt bumped to 9). -/
def flagA2 : FeatureFlag :=
  ⟨"id-a", "feature-b", "demo flag", false, [tenantRuleA, userRuleA], 0, 9⟩

/-- The state after update(id-a, uB) at time 9 on sA. -/
def sB : RepoState := ⟨[("id-a", 0), ("feature-b", 0)], [(0, flagA2)], 1⟩

/-! ## Claim C1: the dual-key invariant -/

/-- C1: after a successful create, findById on the flag's id and
findByName on the flag's name both return the identical flag object
(the same reference); after a successful update whose (nonempty) new name
differs from the current name, the old name resolves to absent and the new
name resolves to the very flag the update returned; after a successful
delete, both the id and the name of the deleted flag resolve to absent. -/
theorem repository_dual_key :
    (∀ (s : RepoState) (flag : FeatureFlag) (t : RepoState) (r : Nat),
      create s flag = Except.ok (t, r) →
      findById t flag.id = some r ∧ findByName t flag.name = some r) ∧
    (∀ (s : RepoState) (id : String) (u : FlagUpdates) (now : Nat) (t : RepoState)
      (r r2 : Nat) (f : FeatureFlag) (n : String),
      mapGet s.entries id = some r → heapGet s.heap r = some f →
      u.name = some n → n ≠ "" → n ≠ f.name →
      update s id u now = Except.ok (t, some r2) →
      r2 = r ∧ findByName t f.name = none ∧ findByName t n = some r) ∧
    (∀ (s : RepoState) (id : String) (r : Nat) (f : FeatureFlag),
      mapGet s.entries id = some r → heapGet s.heap r = some f →
      (deleteFlag s id).2 = true ∧
      findById (deleteFlag s id).1 id = none ∧
      findByName (deleteFlag s id).1 f.name = none) := by
  refine ⟨?_, ?_, ?_⟩
  · intro s flag t r hc
    unfold create at hc
    split at hc
    · exact absurd hc (by simp)
    · split at hc
      · exact absurd hc (by simp)
      · rw [Except.ok.injEq, Prod.mk.injEq] at hc
        obtain ⟨ht, hr⟩ := hc
        subst ht; subst hr
        constructor
        · show mapGet (mapSet (mapSet s.entries flag.id s.nextRef) flag.name s.nextRef)
            flag.id = some s.nextRef
          by_cases hin : flag.name = flag.id
          · rw [hin, mapGet_set_self]
          · rw [mapGet_set_ne _ _ _ _ (fun hh => hin hh.symm), mapGet_set_self]
        · exact mapGet_set_self _ _ _
  · intro s id u now t r r2 f n hr hf hn hne hnf hu
    have hcond : (n != "" && n != f.name) = true := by simp [hne, hnf]
    unfold update at hu
    simp only [hr, hf, hn, hcond, if_true] at hu
    split at hu
    · exact absurd hu (by simp)
    · rw [Except.ok.injEq, Prod.mk.injEq] at hu
      obtain ⟨ht, hr2⟩ := hu
      rw [Option.some.injEq] at hr2
      subst ht
      refine ⟨hr2.symm, ?_, ?_⟩
      · show mapGet (mapSet (mapDelete s.entries f.name) n r) f.name = none
        rw [mapGet_set_ne _ _ _ _ (fun hh => hnf hh.symm), mapGet_delete_self]
      · exact mapGet_set_self _ _ _
  · intro s id r f hr hf
    unfold deleteFlag
    simp only [hr, hf]
    refine ⟨by trivial, ?_, ?_⟩
    · show mapGet (mapDelete (mapDelete s.entries id) f.name) id = none
      by_cases hin : f.name = id
      · rw [hin, mapGet_delete_self]
      · rw [mapGet_delete_ne _ _ _ (fun hh => hin hh.symm), mapGet_delete_self]
    · exact mapGet_delete_self _ _

/-- C1 witness: create flagA on the empty repository, rename it to
feature-b, and delete it; all three conclusions evaluated concretely. -/
theorem repository_dual_key_witness :
    (findById sA "id-a" = some 0 ∧ findByName sA "feature-a" = some 0) ∧
    (0 = 0 ∧ findByName sB "feature-a" = none ∧ findByName sB "feature-b" = some 0) ∧
    ((deleteFlag sA "id-a").2 = true ∧ findById (deleteFlag sA "id-a").1 "id-a" = none ∧
      findByName (deleteFlag sA "id-a").1 "feature-a" = none) :=
  ⟨repository_dual_key.1 emptyRepo flagA sA 0 (by decide),
   repository_dual_key.2.1 sA "id-a" uB 9 sB 0 0 flagA "feature-b"
     (by decide) (by decide) (by decide) (by decide) (by decide) (by decide),
   repository_dual_key.2.2 sA "id-a" 0 flagA (by decide) (by decide)⟩

/-! ## Claim C10: id keys and name keys share one Map -/

/-- C10: findById and findByName are the very same lookup in the shared
Map, so they do not distinguish key kinds: for a stored flag, findById on
the flag's name returns the flag, findByName on the flag's id returns the
flag, and exists(name) is true. -/
theorem shared_map_lookup :
    (∀ (s : RepoState) (k : String), findById s k = findByName s k) ∧
    (∀ (s : RepoState) (r : Nat) (f : FeatureFlag),
      heapGet s.heap r = some f →
      findById s f.id = some r → findByName s f.name = some r →
      findById s f.name = some r ∧ findByName s f.id = some r ∧
      existsFlag s f.name = true) := by
  refine ⟨fun s k => rfl, ?_⟩
  intro s r f _ hid hname
  exact ⟨hname, hid, mapHas_of_get _ _ _ hname⟩

/-- C10 witness: on the one-flag state both keys answer both lookups. -/
theorem shared_map_lookup_witness :
    findById sA "feature-a" = some 0 ∧ findByName sA "id-a" = some 0 ∧
    existsFlag sA "feature-a" = true :=
  shared_map_lookup.2 sA 0 flagA (by decide) (by decide) (by decide)

/-! ## Claim C2: list duplicates stored flags -/

/-- C2 is refuted by the code: a reachable one-flag state has two Map
entries for the flag (id key and name key), Array.from(values()) yields
the flag object once per entry, and list applies no deduplication, so the
single logical flag appears twice in the returned sequence. -/
theorem list_returns_duplicates :
    Reachable sA ∧ list sA 100 0 none = [0, 0] :=
  ⟨Reachable.createStep Reachable.empty
     (show create emptyRepo flagA = Except.ok (sA, 0) by decide),
   by decide⟩

/-! ## Further association map lemmas (for the repository invariant) -/

section MapLemmas2

variable {α β : Type} [DecidableEq α]

theorem mapSet_fresh (m : List (α × β)) (k : α) (v : β) (h : mapHas m k = false) :
    mapSet m k v = m ++ [(k, v)] := by
  unfold mapSet
  unfold mapHas at h
  rw [h]
  simp

theorem mapGet_some_mem (m : List (α × β)) (k : α) (v : β) (h : mapGet m k = some v) :
    (k, v) ∈ m := by
  unfold mapGet at h
  cases hf : m.find? (fun e => e.1 == k) with
  | none => rw [hf] at h; exact absurd h (by simp)
  | some e =>
    rw [hf] at h
    have hmem : e ∈ m := List.mem_of_find?_eq_some hf
    have hkey : (e.1 == k) = true :=
      List.find?_some (p := fun x : α × β => x.1 == k) hf
    have hk : e.1 = k := beq_iff_eq.mp hkey
    have hv : e.2 = v := by injection h
    have : e = (k, v) := Prod.ext hk hv
    rw [this] at hmem
    exact hmem

theorem mem_mapDelete (m : List (α × β)) (k : α) (e : α × β) :
    e ∈ mapDelete m k ↔ e ∈ m ∧ e.1 ≠ k := by
  unfold mapDelete
  rw [List.mem_filter]
  simp [bne_iff_ne]

theorem mapHas_true_iff (m : List (α × β)) (k : α) :
    mapHas m k = true ↔ k ∈ m.map Prod.fst := by
  unfold mapHas
  rw [List.any_eq_true]
  constructor
  · rintro ⟨e, he, hk⟩
    exact List.mem_map.mpr ⟨e, he, beq_iff_eq.mp hk⟩
  · intro h
    obtain ⟨e, he, hk⟩ := List.mem_map.mp h
    exact ⟨e, he, beq_iff_eq.mpr hk⟩

theorem mapHas_false_iff (m : List (α × β)) (k : α) :
    mapHas m k = false ↔ k ∉ m.map Prod.fst := by
  rw [← Bool.not_eq_true, not_iff_not]
  exact mapHas_true_iff m k

theorem keys_mapDelete_sublist (m : List (α × β)) (k : α) :
    ((mapDelete m k).map Prod.fst).Sublist (m.map Prod.fst) :=
  (List.filter_sublist m).map Prod.fst

theorem mapHas_delete_false (m : List (α × β)) (k k2 : α) (h : mapHas m k2 = false) :
    mapHas (mapDelete m k) k2 = false := by
  rw [mapHas_false_iff] at h ⊢
  intro hmem
  exact h ((keys_mapDelete_sublist m k).mem hmem)

theorem mapGet_of_mem_nodup (m : List (α × β)) (k : α) (v : β)
    (hnd : (m.map Prod.fst).Nodup) (h : (k, v) ∈ m) : mapGet m k = some v := by
  induction m with
  | nil => simp at h
  | cons a m ih =>
    rw [List.map_cons, List.nodup_cons] at hnd
    rw [mapGet_cons]
    rcases List.mem_cons.mp h with he | hm
    · rw [← he]
      exact if_pos rfl
    · have hk : a.1 ≠ k := by
        intro hak
        exact hnd.1 (hak ▸ List.mem_map.mpr ⟨(k, v), hm, rfl⟩)
      rw [if_neg hk]
      exact ih hnd.2 hm

end MapLemmas2

/-! ## The repository invariant

In every state produced by validated, id-keyed usage: the Map keys are
pairwise distinct, references are below the allocation counter, and every
entry points at a live flag object whose id key and name key are both
present and are the only keys referencing it. -/

def Inv (s : RepoState) : Prop :=
  (s.entries.map Prod.fst).Nodup ∧
  (∀ e ∈ s.entries, e.2 < s.nextRef) ∧
  (∀ e ∈ s.entries, ∃ f, heapGet s.heap e.2 = some f ∧
    f.id ≠ "" ∧ f.name ≠ "" ∧ f.id ≠ f.name ∧
    (f.id, e.2) ∈ s.entries ∧ (f.name, e.2) ∈ s.entries ∧
    (e.1 = f.id ∨ e.1 = f.name))

theorem inv_empty : Inv emptyRepo := by
  refine ⟨List.nodup_nil, ?_, ?_⟩ <;> intro e he <;> simp [emptyRepo] at he

theorem inv_create (s : RepoState) (flag : FeatureFlag) (t : RepoState) (r : Nat)
    (hs : Inv s) (hid : flag.id ≠ "") (hname : flag.name ≠ "")
    (hdiff : flag.id ≠ flag.name) (hc : create s flag = Except.ok (t, r)) : Inv t := by
  obtain ⟨hnd, hbound, hflags⟩ := hs
  unfold create at hc
  split at hc
  · exact absurd hc (by simp)
  case isFalse h1 =>
  split at hc
  · exact absurd hc (by simp)
  case isFalse h2 =>
  have h1f : mapHas s.entries flag.id = false := by
    revert h1; cases mapHas s.entries flag.id <;> simp
  have h2f : mapHas s.entries flag.name = false := by
    revert h2; cases mapHas s.entries flag.name <;> simp
  rw [Except.ok.injEq, Prod.mk.injEq] at hc
  obtain ⟨ht, hr⟩ := hc
  have hset1 : mapSet s.entries flag.id s.nextRef =
      s.entries ++ [(flag.id, s.nextRef)] := mapSet_fresh _ _ _ h1f
  have hhas2 : mapHas (s.entries ++ [(flag.id, s.nextRef)]) flag.name = false := by
    rw [mapHas_false_iff, List.map_append]
    intro hmem
    rcases List.mem_append.mp hmem with hmem | hmem
    · exact (mapHas_false_iff _ _).mp h2f hmem
    · simp at hmem
      exact hdiff hmem.symm
  have hset2 : mapSet (mapSet s.entries flag.id s.nextRef) flag.name s.nextRef =
      (s.entries ++ [(flag.id, s.nextRef)]) ++ [(flag.name, s.nextRef)] := by
    rw [hset1]
    exact mapSet_fresh _ _ _ hhas2
  subst ht
  refine ⟨?_, ?_, ?_⟩
  · show ((mapSet (mapSet s.entries flag.id s.nextRef) flag.name s.nextRef).map
      Prod.fst).Nodup
    rw [hset2, List.map_append, List.map_append]
    rw [List.nodup_append]
    refine ⟨?_, by simp, ?_⟩
    · rw [List.nodup_append]
      refine ⟨hnd, by simp, ?_⟩
      intro a ha hb
      simp at hb
      subst hb
      exact (mapHas_false_iff _ _).mp h1f ha
    · intro a ha hb
      simp at hb
      subst hb
      rcases List.mem_append.mp ha with ha | ha
      · exact (mapHas_false_iff _ _).mp h2f ha
      · simp at ha
        exact hdiff ha.symm
  · intro e he
    show e.2 < s.nextRef + 1
    rw [hset2] at he
    rcases List.mem_append.mp he with he | he
    · rcases List.mem_append.mp he with he | he
      · exact Nat.lt_succ_of_lt (hbound e he)
      · simp at he
        rw [he]
        exact Nat.lt_succ_self _
    · simp at he
      rw [he]
      exact Nat.lt_succ_self _
  · intro e he
    rw [hset2] at he
    have hheapSelf : heapGet (heapSet s.heap s.nextRef flag) s.nextRef = some flag :=
      mapGet_set_self _ _ _
    have hidMem : (flag.id, s.nextRef) ∈
        (s.entries ++ [(flag.id, s.nextRef)]) ++ [(flag.name, s.nextRef)] := by
      apply List.mem_append_left
      apply List.mem_append_right
      simp
    have hnameMem : (flag.name, s.nextRef) ∈
        (s.entries ++ [(flag.id, s.nextRef)]) ++ [(flag.name, s.nextRef)] := by
      apply List.mem_append_right
      simp
    rcases List.mem_append.mp he with he | he
    · rcases List.mem_append.mp he with he | he
      · obtain ⟨f, hg, f1, f2, f3, fidm, fnamem, fkey⟩ := hflags e he
        refine ⟨f, ?_, f1, f2, f3, ?_, ?_, fkey⟩
        · show heapGet (heapSet s.heap s.nextRef flag) e.2 = some f
          have hne : e.2 ≠ s.nextRef := Nat.ne_of_lt (hbound e he)
          unfold heapGet heapSet
          unfold heapGet at hg
          rw [mapGet_set_ne _ _ _ _ hne]
          exact hg
        · rw [hset2]
          exact List.mem_append_left _ (List.mem_append_left _ fidm)
        · rw [hset2]
          exact List.mem_append_left _ (List.mem_append_left _ fnamem)
      · simp at he
        subst he
        refine ⟨flag, hheapSelf, hid, hname, hdiff, ?_, ?_, Or.inl rfl⟩
        · rw [hset2]; exact hidMem
        · rw [hset2]; exact hnameMem
    · simp at he
      subst he
      refine ⟨flag, hheapSelf, hid, hname, hdiff, ?_, ?_, Or.inr rfl⟩
      · rw [hset2]; exact hidMem
      · rw [hset2]; exact hnameMem

/-- With pairwise distinct keys, a key determines its value. -/
theorem nodup_keys_unique {α β : Type} [DecidableEq α] (m : List (α × β))
    (hnd : (m.map Prod.fst).Nodup) (k : α) (v1 v2 : β)
    (h1 : (k, v1) ∈ m) (h2 : (k, v2) ∈ m) : v1 = v2 := by
  have e1 := mapGet_of_mem_nodup m k v1 hnd h1
  have e2 := mapGet_of_mem_nodup m k v2 hnd h2
  rw [e1] at e2
  injection e2

/-- Overwriting the heap cell of a stored flag with a flag carrying the
same id and name preserves the invariant (the no-retarget update paths). -/
theorem inv_heap_update (s : RepoState) (r : Nat) (f nf : FeatureFlag)
    (hs : Inv s) (hf : heapGet s.heap r = some f)
    (hfid : nf.id = f.id) (hfname : nf.name = f.name) :
    Inv ⟨s.entries, heapSet s.heap r nf, s.nextRef⟩ := by
  obtain ⟨hnd, hbound, hflags⟩ := hs
  refine ⟨hnd, hbound, ?_⟩
  intro e he
  obtain ⟨fe, hg, f1, f2, f3, fidm, fnamem, fkey⟩ := hflags e he
  by_cases her : e.2 = r
  · have hfe : fe = f := by
      rw [her] at hg
      rw [hg] at hf
      injection hf
    subst hfe
    refine ⟨nf, ?_, ?_, ?_, ?_, ?_, ?_, ?_⟩
    · show heapGet (heapSet s.heap r nf) e.2 = some nf
      rw [her]
      exact mapGet_set_self _ _ _
    · rw [hfid]; exact f1
    · rw [hfname]; exact f2
    · rw [hfid, hfname]; exact f3
    · rw [hfid]; exact fidm
    · rw [hfname]; exact fnamem
    · rw [hfid, hfname]; exact fkey
  · refine ⟨fe, ?_, f1, f2, f3, fidm, fnamem, fkey⟩
    show heapGet (heapSet s.heap r nf) e.2 = some fe
    unfold heapGet heapSet
    unfold heapGet at hg
    rw [mapGet_set_ne _ _ _ _ her]
    exact hg

theorem inv_update (s : RepoState) (id : String) (u : FlagUpdates) (now : Nat)
    (t : RepoState) (ro : Option Nat) (hs : Inv s)
    (hvn : ∀ n, u.name = some n → n ≠ "")
    (hu : update s id u now = Except.ok (t, ro)) : Inv t := by
  unfold update at hu
  cases hr : mapGet s.entries id with
  | none =>
    rw [hr] at hu
    simp only [Except.ok.injEq, Prod.mk.injEq] at hu
    rw [← hu.1]
    exact hs
  | some r =>
    rw [hr] at hu
    simp only [] at hu
    cases hf : heapGet s.heap r with
    | none =>
      rw [hf] at hu
      simp only [Except.ok.injEq, Prod.mk.injEq] at hu
      rw [← hu.1]
      exact hs
    | some f =>
      rw [hf] at hu
      simp only [] at hu
      have hIdMem : (id, r) ∈ s.entries := mapGet_some_mem _ _ _ hr
      obtain ⟨fe, hg, hf1, hf2, hf3, hfidm, hfnamem, _⟩ := hs.2.2 (id, r) hIdMem
      dsimp only at hg hfidm hfnamem
      have hfe : fe = f := by rw [hg] at hf; injection hf
      rw [hfe] at hg hf1 hf2 hf3 hfidm hfnamem
      cases hn : u.name with
      | none =>
        rw [hn] at hu
        simp only [Except.ok.injEq, Prod.mk.injEq] at hu
        rw [← hu.1]
        exact inv_heap_update s r f _ hs hf rfl (by simp [applyUpdates, hn])
      | some n =>
        rw [hn] at hu
        simp only [] at hu
        have hne : n ≠ "" := hvn n hn
        by_cases hcond : (n != "" && n != f.name) = true
        · rw [if_pos hcond] at hu
          have hnf : n ≠ f.name := by
            have := (Bool.and_eq_true _ _).mp hcond
            exact bne_iff_ne.mp this.2
          by_cases hhas : mapHas s.entries n = true
          · rw [if_pos hhas] at hu
            exact absurd hu (by simp)
          · have hhasf : mapHas s.entries n = false := by
              revert hhas; cases mapHas s.entries n <;> simp
            rw [if_neg hhas] at hu
            simp only [Except.ok.injEq, Prod.mk.injEq] at hu
            rw [← hu.1]
            -- the retargeting branch
            have hnid : n ≠ f.id := by
              intro hh
              have : f.id ∈ s.entries.map Prod.fst :=
                List.mem_map.mpr ⟨(f.id, r), hfidm, rfl⟩
              exact (mapHas_false_iff _ _).mp hhasf (hh ▸ this)
            have hsetE : mapSet (mapDelete s.entries f.name) n r =
                mapDelete s.entries f.name ++ [(n, r)] :=
              mapSet_fresh _ _ _ (mapHas_delete_false _ _ _ hhasf)
            obtain ⟨hnd, hbound, hflags⟩ := hs
            have hnfid : ({ applyUpdates f u with updatedAt := now } : FeatureFlag).id
                = f.id := by simp [applyUpdates]
            have hnfname : ({ applyUpdates f u with updatedAt := now } : FeatureFlag).name
                = n := by simp [applyUpdates, hn]
            refine ⟨?_, ?_, ?_⟩
            · show ((mapSet (mapDelete s.entries f.name) n r).map Prod.fst).Nodup
              rw [hsetE, List.map_append]
              rw [List.nodup_append]
              refine ⟨hnd.sublist (keys_mapDelete_sublist _ _), by simp, ?_⟩
              intro a ha hb
              simp at hb
              subst hb
              exact (mapHas_false_iff _ _).mp (mapHas_delete_false _ _ _ hhasf) ha
            · intro e he
              show e.2 < s.nextRef
              rw [hsetE] at he
              rcases List.mem_append.mp he with he | he
              · exact hbound e ((mem_mapDelete _ _ _).mp he).1
              · simp at he
                rw [he]
                exact hbound (id, r) hIdMem
            · intro e he
              rw [hsetE] at he
              have hNewHeap : heapGet (heapSet s.heap r
                  { applyUpdates f u with updatedAt := now }) r =
                  some { applyUpdates f u with updatedAt := now } :=
                mapGet_set_self _ _ _
              have hIdInT : (f.id, r) ∈ mapSet (mapDelete s.entries f.name) n r := by
                rw [hsetE]
                exact List.mem_append_left _
                  ((mem_mapDelete _ _ _).mpr ⟨hfidm, hf3⟩)
              have hNameInT : (n, r) ∈ mapSet (mapDelete s.entries f.name) n r := by
                rw [hsetE]
                exact List.mem_append_right _ (by simp)
              rcases List.mem_append.mp he with he | he
              · obtain ⟨he2, hekey⟩ := (mem_mapDelete _ _ _).mp he
                obtain ⟨fe, hg2, g1, g2, g3, gidm, gnamem, gkey⟩ := hflags e he2
                by_cases her : e.2 = r
                · rw [her] at hg2
                  have hfe2 : fe = f := by rw [hg2] at hf; injection hf
                  rw [hfe2] at gkey
                  refine ⟨{ applyUpdates f u with updatedAt := now }, ?_, ?_, ?_, ?_,
                    ?_, ?_, ?_⟩
                  · show heapGet (heapSet s.heap r _) e.2 = _
                    rw [her]
                    exact hNewHeap
                  · rw [hnfid]; exact hf1
                  · rw [hnfname]; exact hne
                  · rw [hnfid, hnfname]
                    exact fun hh => hnid hh.symm
                  · rw [hnfid, her]; exact hIdInT
                  · rw [hnfname, her]; exact hNameInT
                  · rw [hnfid, hnfname]
                    rcases gkey with gk | gk
                    · exact Or.inl gk
                    · exact absurd gk hekey
                · refine ⟨fe, ?_, g1, g2, g3, ?_, ?_, gkey⟩
                  · show heapGet (heapSet s.heap r _) e.2 = some fe
                    unfold heapGet heapSet
                    unfold heapGet at hg2
                    rw [mapGet_set_ne _ _ _ _ her]
                    exact hg2
                  · have hgid : fe.id ≠ f.name := by
                      intro hh
                      exact her (nodup_keys_unique s.entries hnd f.name e.2 r
                        (hh ▸ gidm) hfnamem)
                    rw [hsetE]
                    exact List.mem_append_left _
                      ((mem_mapDelete _ _ _).mpr ⟨gidm, hgid⟩)
                  · have hgname : fe.name ≠ f.name := by
                      intro hh
                      exact her (nodup_keys_unique s.entries hnd f.name e.2 r
                        (hh ▸ gnamem) hfnamem)
                    rw [hsetE]
                    exact List.mem_append_left _
                      ((mem_mapDelete _ _ _).mpr ⟨gnamem, hgname⟩)
              · simp at he
                subst he
                refine ⟨{ applyUpdates f u with updatedAt := now }, hNewHeap, ?_, ?_,
                  ?_, ?_, ?_, ?_⟩
                · rw [hnfid]; exact hf1
                · rw [hnfname]; exact hne
                · rw [hnfid, hnfname]
                  exact fun hh => hnid hh.symm
                · rw [hnfid]; exact hIdInT
                · rw [hnfname]; exact hNameInT
                · rw [hnfname]
                  exact Or.inr rfl
        · rw [if_neg hcond] at hu
          simp only [Except.ok.injEq, Prod.mk.injEq] at hu
          rw [← hu.1]
          have hcf : (n != "" && n != f.name) = false := by
            revert hcond; cases (n != "" && n != f.name) <;> simp
          have hnfn : n = f.name := by
            rcases Bool.and_eq_false_iff.mp hcf with hh | hh
            · rw [bne_iff_ne.mpr hne] at hh
              exact absurd hh (by simp)
            · by_contra hx
              rw [bne_iff_ne.mpr hx] at hh
              exact absurd hh (by simp)
          exact inv_heap_update s r f _ hs hf (by simp [applyUpdates])
            (by simp [applyUpdates, hn, hnfn])

theorem inv_delete (s : RepoState) (id : String) (t : RepoState) (b : Bool)
    (hs : Inv s)
    (hdel : ∀ r f, mapGet s.entries id = some r → heapGet s.heap r = some f → f.id = id)
    (h : deleteFlag s id = (t, b)) : Inv t := by
  unfold deleteFlag at h
  cases hr : mapGet s.entries id with
  | none =>
    rw [hr] at h
    rw [Prod.mk.injEq] at h
    rw [← h.1]
    exact hs
  | some r =>
    rw [hr] at h
    simp only [] at h
    cases hf : heapGet s.heap r with
    | none =>
      rw [hf] at h
      rw [Prod.mk.injEq] at h
      rw [← h.1]
      exact hs
    | some f =>
      rw [hf] at h
      simp only [Prod.mk.injEq] at h
      rw [← h.1]
      have hfid : f.id = id := hdel r f hr hf
      have hIdMem : (id, r) ∈ s.entries := mapGet_some_mem _ _ _ hr
      obtain ⟨hnd, hbound, hflags⟩ := hs
      obtain ⟨fe, hg, hf1, hf2, hf3, hfidm, hfnamem, _⟩ := hflags (id, r) hIdMem
      dsimp only at hg hfidm hfnamem
      have hfe : fe = f := by rw [hg] at hf; injection hf
      rw [hfe] at hg hf1 hf2 hf3 hfidm hfnamem
      refine ⟨?_, ?_, ?_⟩
      · exact hnd.sublist
          ((keys_mapDelete_sublist _ _).trans (keys_mapDelete_sublist _ _))
      · intro e he
        exact hbound e
          ((mem_mapDelete _ _ _).mp ((mem_mapDelete _ _ _).mp he).1).1
      · intro e he
        obtain ⟨he1, heName⟩ := (mem_mapDelete _ _ _).mp he
        obtain ⟨he2, heId⟩ := (mem_mapDelete _ _ _).mp he1
        obtain ⟨fe, hg2, g1, g2, g3, gidm, gnamem, gkey⟩ := hflags e he2
        have her : e.2 ≠ r := by
          intro hh
          rw [hh] at hg2
          have hfe2 : fe = f := by rw [hg2] at hf; injection hf
          rw [hfe2] at gkey
          rcases gkey with gk | gk
          · exact heId (gk.trans hfid)
          · exact heName gk
        refine ⟨fe, hg2, g1, g2, g3, ?_, ?_, gkey⟩
        · have hgid1 : fe.id ≠ id := by
            intro hh
            apply her
            exact nodup_keys_unique s.entries hnd id e.2 r (hh ▸ gidm) hIdMem
          have hgid2 : fe.id ≠ f.name := by
            intro hh
            apply her
            exact nodup_keys_unique s.entries hnd f.name e.2 r (hh ▸ gidm) hfnamem
          exact (mem_mapDelete _ _ _).mpr
            ⟨(mem_mapDelete _ _ _).mpr ⟨gidm, hgid1⟩, hgid2⟩
        · have hgn1 : fe.name ≠ id := by
            intro hh
            apply her
            exact nodup_keys_unique s.entries hnd id e.2 r (hh ▸ gnamem) hIdMem
          have hgn2 : fe.name ≠ f.name := by
            intro hh
            apply her
            exact nodup_keys_unique s.entries hnd f.name e.2 r (hh ▸ gnamem) hfnamem
          exact (mem_mapDelete _ _ _).mpr
            ⟨(mem_mapDelete _ _ _).mpr ⟨gnamem, hgn1⟩, hgn2⟩

/-- Every state reachable through validated, id-keyed usage satisfies the
repository invariant. -/
theorem inv_reachableW (s : RepoState) (h : ReachableW s) : Inv s := by
  induction h with
  | empty => exact inv_empty
  | createStep hs hid hname hdiff hc ih => exact inv_create _ _ _ _ ih hid hname hdiff hc
  | updateStep hs hvn hu ih => exact inv_update _ _ _ _ _ _ ih hvn hu
  | deleteStep hs hdel hd ih => exact inv_delete _ _ _ _ ih hdel hd

/-! ## The deduplicated count -/

/-- The truthy search filter as one predicate over a flag: a missing or
empty search term matches everything. -/
def matchesSearch (f : FeatureFlag) (search : Option String) : Bool :=
  match search with
  | some q => if q != "" then searchMatches f q else true
  | none => true

/-- The entry filter used by count: the entry's value is a well-formed
flag object whose own id equals the entry key. -/
def countP (s : RepoState) (e : String × Nat) : Bool :=
  match heapGet s.heap e.2 with
  | some f => f.id != "" && f.name != "" && f.id == e.1
  | none => false

/-- The search filter of count lifted to entries. -/
def countQ (s : RepoState) (search : Option String) (e : String × Nat) : Bool :=
  match heapGet s.heap e.2 with
  | some f => matchesSearch f search
  | none => false

/-- Modelled from the spec: the distinct logical flags are the distinct
flag object references in the Map. -/
def logicalRefs (s : RepoState) : List Nat := (s.entries.map (fun e => e.2)).dedup

/-- Modelled from the spec: the number of distinct logical flags matching
the (truthy) search filter — what count is claimed to return. -/
def logicalCount (s : RepoState) (search : Option String) : Nat :=
  ((logicalRefs s).filter (fun r =>
    match heapGet s.heap r with
    | some f => matchesSearch f search
    | none => false)).length

theorem countP_key (s : RepoState) (e : String × Nat) (h : countP s e = true) :
    ∃ f, heapGet s.heap e.2 = some f ∧ e.1 = f.id := by
  unfold countP at h
  cases hg : heapGet s.heap e.2 with
  | none => rw [hg] at h; exact absurd h (by simp)
  | some f =>
    rw [hg] at h
    simp only [] at h
    refine ⟨f, rfl, ?_⟩
    have h3 : (f.id == e.1) = true := by
      cases hpq : (f.id == e.1)
      · rw [hpq] at h; simp at h
      · rfl
    exact (beq_iff_eq.mp h3).symm

theorem countP_isSome (s : RepoState) (e : String × Nat) (h : countP s e = true) :
    (heapGet s.heap e.2).isSome = true := by
  obtain ⟨f, hg, _⟩ := countP_key s e h
  rw [hg]
  rfl

theorem length_filterMap_heapGet (h : List (Nat × FeatureFlag))
    (l : List (String × Nat)) (hl : ∀ e ∈ l, (heapGet h e.2).isSome = true) :
    (l.filterMap (fun e => heapGet h e.2)).length = l.length := by
  induction l with
  | nil => rfl
  | cons a l ih =>
    have ha := hl a (by simp)
    cases hg : heapGet h a.2 with
    | none => rw [hg] at ha; simp at ha
    | some f =>
      simp only [List.filterMap_cons, hg, List.length_cons]
      exact congrArg Nat.succ (ih (fun e he => hl e (by simp [he])))

theorem length_filter_filterMap (h : List (Nat × FeatureFlag))
    (l : List (String × Nat)) (q : FeatureFlag → Bool)
    (hl : ∀ e ∈ l, (heapGet h e.2).isSome = true) :
    ((l.filterMap (fun e => heapGet h e.2)).filter q).length =
    (l.filter (fun e =>
      match heapGet h e.2 with
      | some f => q f
      | none => false)).length := by
  induction l with
  | nil => rfl
  | cons a l ih =>
    have ha := hl a (by simp)
    have hrest : ∀ e ∈ l, (heapGet h e.2).isSome = true :=
      fun e he => hl e (by simp [he])
    cases hg : heapGet h a.2 with
    | none => rw [hg] at ha; simp at ha
    | some f =>
      cases hq : q f
      · simp only [List.filterMap_cons, hg, List.filter_cons, hq,
          Bool.false_eq_true, if_false]
        exact ih hrest
      · simp only [List.filterMap_cons, hg, List.filter_cons, hq, if_true,
          List.length_cons]
        exact congrArg Nat.succ (ih hrest)

theorem count_eq_filter_length (s : RepoState) (search : Option String) :
    count s search = ((s.entries.filter (countP s)).filter (countQ s search)).length := by
  have hPQ : ∀ e ∈ s.entries.filter (countP s), (heapGet s.heap e.2).isSome = true :=
    fun e he => countP_isSome s e (List.mem_filter.mp he).2
  have hcountP : (fun e : String × Nat =>
      match heapGet s.heap e.2 with
      | some f => f.id != "" && f.name != "" && f.id == e.1
      | none => false) = countP s := rfl
  unfold count
  cases search with
  | none =>
    simp only []
    rw [hcountP, length_filterMap_heapGet s.heap _ hPQ]
    have hkeep : (s.entries.filter (countP s)).filter (countQ s none) =
        s.entries.filter (countP s) := by
      apply List.filter_eq_self.mpr
      intro e he
      unfold countQ
      cases hg : heapGet s.heap e.2 with
      | none =>
        have hps := hPQ e he
        rw [hg] at hps
        simp at hps
      | some f => rfl
    rw [hkeep]
  | some q =>
    cases hq : (q != "") with
    | false =>
      simp only [hq, Bool.false_eq_true, if_false]
      rw [hcountP, length_filterMap_heapGet s.heap _ hPQ]
      have hkeep : (s.entries.filter (countP s)).filter (countQ s (some q)) =
          s.entries.filter (countP s) := by
        apply List.filter_eq_self.mpr
        intro e he
        unfold countQ
        cases hg : heapGet s.heap e.2 with
        | none =>
          have hps := hPQ e he
          rw [hg] at hps
          simp at hps
        | some f => simp [matchesSearch, hq]
      rw [hkeep]
    | true =>
      simp only [hq, if_true]
      rw [hcountP, length_filter_filterMap s.heap _ _ hPQ]
      apply congrArg List.length
      apply List.filter_congr
      intro e he
      unfold countQ
      cases hg : heapGet s.heap e.2 with
      | none => rfl
      | some f =>
        show searchMatches f q = matchesSearch f (some q)
        simp [matchesSearch, hq]

/-- Under the invariant, the entries kept by count are in bijection (via
the reference they carry) with the distinct matching references. -/
theorem count_core (s : RepoState) (hnd : (s.entries.map Prod.fst).Nodup)
    (hflags : ∀ e ∈ s.entries, ∃ f, heapGet s.heap e.2 = some f ∧
      f.id ≠ "" ∧ f.name ≠ "" ∧ f.id ≠ f.name ∧
      (f.id, e.2) ∈ s.entries ∧ (f.name, e.2) ∈ s.entries ∧
      (e.1 = f.id ∨ e.1 = f.name))
    (search : Option String) :
    ((s.entries.filter (countP s)).filter (countQ s search)).length =
    ((logicalRefs s).filter (fun r =>
      match heapGet s.heap r with
      | some f => matchesSearch f search
      | none => false)).length := by
  have hentriesNodup : s.entries.Nodup := List.Nodup.of_map _ hnd
  have hAnodup : (((s.entries.filter (countP s)).filter (countQ s search)).map
      Prod.snd).Nodup := by
    apply List.Nodup.map_on
    · intro x hx y hy hxy
      have hxP : countP s x = true := (List.mem_filter.mp (List.mem_filter.mp hx).1).2
      have hyP : countP s y = true := (List.mem_filter.mp (List.mem_filter.mp hy).1).2
      obtain ⟨fx, hgx, hkx⟩ := countP_key s x hxP
      obtain ⟨fy, hgy, hky⟩ := countP_key s y hyP
      have hfxy : fx = fy := by
        rw [hxy] at hgx
        rw [hgx] at hgy
        injection hgy
      exact Prod.ext (by rw [hkx, hky, hfxy]) hxy
    · exact (hentriesNodup.filter _).filter _
  have hBnodup : ((logicalRefs s).filter (fun r =>
      match heapGet s.heap r with
      | some f => matchesSearch f search
      | none => false)).Nodup := (List.nodup_dedup _).filter _
  have hmem : ∀ r : Nat,
      r ∈ ((s.entries.filter (countP s)).filter (countQ s search)).map Prod.snd ↔
      r ∈ (logicalRefs s).filter (fun r =>
        match heapGet s.heap r with
        | some f => matchesSearch f search
        | none => false) := by
    intro r
    constructor
    · intro hr
      obtain ⟨e, he, her⟩ := List.mem_map.mp hr
      have he1 := List.mem_filter.mp he
      have he2 := List.mem_filter.mp he1.1
      apply List.mem_filter.mpr
      constructor
      · apply List.mem_dedup.mpr
        exact List.mem_map.mpr ⟨e, he2.1, her⟩
      · have hq := he1.2
        unfold countQ at hq
        rw [her] at hq
        exact hq
    · intro hr
      have hr1 := List.mem_filter.mp hr
      obtain ⟨e0, he0, he0r⟩ := List.mem_map.mp (List.mem_dedup.mp hr1.1)
      obtain ⟨f, hg, f1, f2, _, fidm, _, _⟩ := hflags e0 he0
      rw [he0r] at hg fidm
      apply List.mem_map.mpr
      refine ⟨(f.id, r), ?_, rfl⟩
      apply List.mem_filter.mpr
      refine ⟨List.mem_filter.mpr ⟨fidm, ?_⟩, ?_⟩
      · show countP s (f.id, r) = true
        unfold countP
        dsimp only
        rw [hg]
        simp [bne_iff_ne, f1, f2]
      · show countQ s search (f.id, r) = true
        unfold countQ
        dsimp only
        rw [hg]
        have hq := hr1.2
        rw [hg] at hq
        exact hq
  have h2 : (((s.entries.filter (countP s)).filter (countQ s search)).map
      Prod.snd).toFinset = ((logicalRefs s).filter (fun r =>
        match heapGet s.heap r with
        | some f => matchesSearch f search
        | none => false)).toFinset := by
    ext r
    rw [List.mem_toFinset, List.mem_toFinset]
    exact hmem r
  calc ((s.entries.filter (countP s)).filter (countQ s search)).length
      = (((s.entries.filter (countP s)).filter (countQ s search)).map
          Prod.snd).length := (List.length_map _ _).symm
    _ = (((s.entries.filter (countP s)).filter (countQ s search)).map
          Prod.snd).toFinset.card := (List.toFinset_card_of_nodup hAnodup).symm
    _ = ((logicalRefs s).filter (fun r =>
          match heapGet s.heap r with
          | some f => matchesSearch f search
          | none => false)).toFinset.card := by rw [h2]
    _ = ((logicalRefs s).filter (fun r =>
          match heapGet s.heap r with
          | some f => matchesSearch f search
          | none => false)).length := List.toFinset_card_of_nodup hBnodup

/-! ## Claim C6: count counts each logical flag exactly once -/

/-- A flag created with its name equal to its id (both keys collapse to
one Map entry). -/
def flagSelf : FeatureFlag := ⟨"aa", "aa", "", false, [], 0, 0⟩

/-- The state after create(flagSelf). -/
def sSelf : RepoState := ⟨[("aa", 0)], [(0, flagSelf)], 1⟩

/-- Rename flagSelf to bb. -/
def uSelf : FlagUpdates := ⟨some "bb", none, none, none⟩

/-- flagSelf after the rename. -/
def flagSelf2 : FeatureFlag := ⟨"aa", "bb", "", false, [], 0, 5⟩

/-- The state after update(aa, name bb): renaming deleted the collapsed
entry (which was also the id entry), so the surviving flag is reachable
only under its name key and its id no longer matches any entry key. -/
def sCx : RepoState := ⟨[("bb", 0)], [(0, flagSelf2)], 1⟩

/-- C6 counterexample: sCx is reachable by create then update, holds one
logical flag, yet count returns 0 — the key-equals-id dedup drops a flag
whose id entry was lost, so count does not return the number of distinct
logical flags on every reachable state. -/
theorem count_misses_renamed_flag :
    Reachable sCx ∧ count sCx none = 0 ∧ logicalCount sCx none = 1 :=
  ⟨Reachable.updateStep
     (Reachable.createStep Reachable.empty
       (show create emptyRepo flagSelf = Except.ok (sSelf, 0) by decide))
     (show update sSelf "aa" uSelf 5 = Except.ok (sCx, some 0) by decide),
   by decide, by decide⟩

/-- C6 (amended): on every state reachable through validated, id-keyed
usage (created flags have a nonempty id and a nonempty name distinct from
the id, name updates are nonempty, delete is keyed by a flag's id), count
returns the number of distinct logical flags matching the search filter,
counting each flag exactly once even though it is reachable by two Map
keys; count takes no pagination options, so its value is independent of
pagination. -/
theorem count_deduplicates (s : RepoState) (hrw : ReachableW s)
    (search : Option String) : count s search = logicalCount s search := by
  obtain ⟨hnd, _, hflags⟩ := inv_reachableW s hrw
  rw [count_eq_filter_length s search]
  unfold logicalCount
  exact count_core s hnd hflags search

/-- C6 amended witness: on the one-flag state sA (two Map entries, one
logical flag) count agrees with the deduplicated logical count and is 1. -/
theorem count_deduplicates_witness :
    count sA none = logicalCount sA none ∧ count sA none = 1 :=
  ⟨count_deduplicates sA
     (ReachableW.createStep ReachableW.empty (by decide) (by decide) (by decide)
       (show create emptyRepo flagA = Except.ok (sA, 0) by decide)) none,
   by decide⟩

end FeatureToggle
